import Mathlib

/-!
Verification of the nugget personal knowledge store.

Shallow embedding of the Rust sources:
  crates/nugget-core/src/frontmatter.rs  (frontmatter codec)
  crates/nugget-core/src/types.rs        (filed KnowledgeUnit and serde defaults)
  crates/nugget-core/src/lib.rs          (InboxItem and constructors)
  crates/nugget-inbox/src/lib.rs         (inbox staging state machine)
  crates/nugget-clipboard/src/lib.rs     (capture filter pipeline)
  crates/nugget-mcp/src/lib.rs           (path-traversal guard of read_knowledge)

Strings are modelled as List Char.  Rust byte offsets coincide with the
character offsets used here because every delimiter searched for is ASCII
and every slice happens at a found delimiter boundary; where the source
uses a byte *length* (str::len) we model it with utf8Len.  Rust
char::is_whitespace is modelled by Char.isWhitespace (exact on the ASCII
inputs all claims are about).  f64 arithmetic of the entropy filter is
modelled over the reals, f64 comparisons and ratios elsewhere over the
rationals.  The external serde_yaml library is not part of this
repository; it is abstracted as a codec record (enc/dec) whose relevant
properties (output is newline-terminated, no line of it begins with a
fence, decoding inverts encoding) appear as explicit hypotheses, except
for the field-defaulting logic of the derived deserializers, which is
modelled field-by-field from the serde attributes in the source.
-/

-- ── Generic string helpers ──

/-- UTF-8 byte length of a character list; models Rust str::len. -/
def utf8Len (t : List Char) : Nat := (t.map Char.utf8Size).sum

/-- Models Rust str::starts_with for a literal pattern (also used for
component-wise Path::starts_with). -/
def listStarts {α : Type} [DecidableEq α] (pat s : List α) : Bool :=
  decide (s.take pat.length = pat)

/-- Models Rust str::ends_with for a literal pattern. -/
def listEnds {α : Type} [DecidableEq α] (pat s : List α) : Bool :=
  listStarts pat.reverse s.reverse

/-- The three-dash fence marker. -/
def fence3 : List Char := ['-', '-', '-']

/-- Rust str::lines strips a carriage return that immediately precedes the
line feed; this helper performs that strip. -/
def stripCr (l : List Char) : List Char :=
  if l.getLast? = some '\r' then l.dropLast else l

/-- Accumulator loop behind rustLines; cur holds the current line in
reverse. -/
def linesAux : List Char → List Char → List (List Char)
  | cur, [] => if cur = [] then [] else [cur.reverse]
  | cur, c :: s =>
    if c = '\n' then
      (if cur.head? = some '\r' then cur.tail.reverse else cur.reverse) :: linesAux [] s
    else linesAux (c :: cur) s

/-- Models Rust str::lines: split at every line feed, drop a final empty
segment, and strip a carriage return before each line feed. -/
def rustLines (s : List Char) : List (List Char) := linesAux [] s

/-- Models Rust str::find for the single character given. -/
def findNl : List Char → Option Nat
  | [] => none
  | c :: t => if c = '\n' then some 0 else (findNl t).map (· + 1)

/-- Models Rust str::find for a literal substring pattern. -/
def findSubstr (pat : List Char) : List Char → Option Nat
  | [] => if pat = [] then some 0 else none
  | c :: t => if listStarts pat (c :: t) then some 0 else (findSubstr pat t).map (· + 1)

-- ── Frontmatter codec (crates/nugget-core/src/frontmatter.rs) ──

/-- KnowledgeType from crates/nugget-core/src/types.rs. -/
inductive KnowledgeType
  | pattern | concept | decision | bug | belief
deriving DecidableEq

/-- RelationType from crates/nugget-core/src/types.rs. -/
inductive RelationType
  | uses | implements | requiresUnderstandingOf | informedBy | oftenCombinedWith
deriving DecidableEq

/-- Relation from crates/nugget-core/src/types.rs. -/
structure Relation where
  id : List Char
  relation : RelationType
deriving DecidableEq

/-- KnowledgeUnit from crates/nugget-core/src/types.rs.  Dates (chrono
NaiveDate) are opaque to the codec and are modelled as integers;
confidence (f64) passes through the codec untouched and is modelled as a
rational. -/
structure KnowledgeUnit where
  id : List Char
  kind : KnowledgeType
  domain : List Char
  tags : List (List Char)
  confidence : ℚ
  source : List Char
  related : List Relation
  created : Int
  lastModified : Int
  body : List Char
deriving DecidableEq

/-- Abstraction of the external serde_yaml_ng library: an encoder and a
decoder for the frontmatter fields of a KnowledgeUnit.  The body field is
serde-skipped, so dec yields a unit whose body is empty. -/
structure YamlCodec where
  enc : KnowledgeUnit → List Char
  dec : List Char → Option KnowledgeUnit

/-- Models serialize from frontmatter.rs: the fence, the YAML block, the
closing fence, then (for a non-empty body) a blank line and the body with
a line feed appended unless one is already present. -/
def serialize (C : YamlCodec) (u : KnowledgeUnit) : List Char :=
  fence3 ++ '\n' :: (C.enc u ++ fence3 ++ '\n' ::
    (if u.body = [] then []
     else '\n' :: (u.body ++ (if u.body.getLast? = some '\n' then [] else ['\n']))))

/-- Loop of find_closing_fence over the lines: return the accumulated
offset of the first line that starts with the fence, advancing by the
(stripped) line length plus one per line, exactly as the source does. -/
def fenceFold : List (List Char) → Nat → Option Nat
  | [], _ => none
  | l :: ls, off =>
    if listStarts fence3 l then some off else fenceFold ls (off + (l.length + 1))

/-- Models find_closing_fence from frontmatter.rs: walk the lines of the
content, offset zero at the start. -/
def find_closing_fence (content : List Char) : Option Nat :=
  fenceFold (rustLines content) 0

/-- Models split_frontmatter from frontmatter.rs.  Returns the YAML slice
and the body slice, or none where the source returns MissingFrontmatter. -/
def split_frontmatter (input : List Char) : Option (List Char × List Char) :=
  let trimmed := input.dropWhile Char.isWhitespace
  if listStarts fence3 trimmed then
    let rest := trimmed.drop 3
    match findNl rest with
    | none => none
    | some pos =>
      let afterOpening := rest.drop (pos + 1)
      match find_closing_fence afterOpening with
      | none => none
      | some closing =>
        let yaml := afterOpening.take closing
        let afterClosing := afterOpening.drop closing
        let body :=
          match findNl afterClosing with
          | none => ([] : List Char)
          | some p => (afterClosing.drop (p + 1)).dropWhile (fun c => c = '\n')
        some (yaml, body)
  else none

/-- Models parse from frontmatter.rs: split, decode the YAML fields, then
install the body slice. -/
def parse (C : YamlCodec) (input : List Char) : Option KnowledgeUnit :=
  match split_frontmatter input with
  | none => none
  | some (yaml, body) =>
    match C.dec yaml with
    | none => none
    | some u => some { u with body := body }

/-- Body shape produced by a serialize/parse round trip of a body that
does not begin with a line feed: unchanged if empty or already
newline-terminated, otherwise with one line feed appended. -/
def normalizeBody (b : List Char) : List Char :=
  if b = [] then [] else if b.getLast? = some '\n' then b else b ++ ['\n']

-- ── Inbox item (crates/nugget-core/src/lib.rs) ──

/-- CaptureMethod from crates/nugget-core/src/lib.rs. -/
inductive CaptureMethod
  | clipboardUrl | clipboardText | aiSession | webCapture | manual | importDir
deriving DecidableEq

/-- Relation from crates/nugget-core/src/lib.rs (target_id plus a free-form
kind string); distinct from the typed Relation of types.rs. -/
structure CoreRelation where
  targetId : List Char
  kind : List Char
deriving DecidableEq

/-- InboxItem from crates/nugget-core/src/lib.rs.  The chrono timestamp
captured_at is modelled as an integer number of seconds; confidence (an
f64 newtype) as a rational. -/
structure InboxItem where
  id : List Char
  knowledgeType : KnowledgeType
  tags : List (List Char)
  confidence : ℚ
  source : Option (List Char)
  related : List CoreRelation
  suggestedDomain : List Char
  suggestedPath : Option (List Char)
  capturedAt : Int
  captureMethod : CaptureMethod
  captureContext : Option (List Char)
  body : List Char
deriving DecidableEq

/-- Models Confidence::new from crates/nugget-core/src/lib.rs: clamp to
the unit interval. -/
def confidenceNew (v : ℚ) : ℚ := max 0 (min 1 v)

/-- Models InboxItem::new from crates/nugget-core/src/lib.rs; the fresh
UUID and the current time are passed in as parameters. -/
def inboxItemNew (k : KnowledgeType) (sd : List Char) (cm : CaptureMethod)
    (body : List Char) (freshId : List Char) (now : Int) : InboxItem :=
  { id := freshId, knowledgeType := k, tags := [], confidence := confidenceNew (mkRat 7 10),
    source := none, related := [], suggestedDomain := sd, suggestedPath := none,
    capturedAt := now, captureMethod := cm, captureContext := none, body := body }

-- ── Inbox file format (crates/nugget-inbox/src/lib.rs) ──

/-- The pattern "---\n" checked by the inbox splitter. -/
def openFence : List Char := fence3 ++ ['\n']

/-- The pattern "\n---" searched for by the inbox splitter. -/
def nlFence : List Char := '\n' :: fence3

/-- Models split_frontmatter from crates/nugget-inbox/src/lib.rs: a plain
substring search for "\n---" after the opening "---\n", slicing the YAML
before it and the body four characters after it. -/
def inbox_split_frontmatter (content : List Char) :
    Option (List Char) × List Char :=
  if listStarts openFence content then
    match findSubstr nlFence (content.drop 4) with
    | some e =>
      let yaml := (content.drop 4).take e
      let bodyStart := 4 + e + 4
      let body :=
        if bodyStart < content.length then
          (content.drop bodyStart).dropWhile (fun c => c = '\n')
        else []
      (some yaml, body)
    | none => (none, content)
  else (none, content)

/-- Models render_inbox_file from crates/nugget-inbox/src/lib.rs: the
frontmatter between fences, a blank line, the body, and one
unconditionally appended line feed.  The serde_yaml output is passed in
as the yaml argument. -/
def render_inbox_file (yaml body : List Char) : List Char :=
  fence3 ++ '\n' :: (yaml ++ fence3 ++ '\n' :: '\n' :: (body ++ ['\n']))

/-- Abstraction of serde_yaml for InboxItem frontmatter, as YamlCodec is
for KnowledgeUnit. -/
structure InboxYaml where
  enc : InboxItem → List Char
  dec : List Char → Option InboxItem

/-- Models read_inbox_file from crates/nugget-inbox/src/lib.rs: split the
file, decode the YAML fields, install the body; none where the source
propagates an error. -/
def decodeInboxFile (C : InboxYaml) (content : List Char) : Option InboxItem :=
  match inbox_split_frontmatter content with
  | (some yaml, body) =>
    match C.dec yaml with
    | some it => some { it with body := body }
    | none => none
  | (none, _) => none

/-- Ordering used by Inbox::list: ascending captured_at. -/
def capturedLe (a b : InboxItem) : Prop := a.capturedAt ≤ b.capturedAt

instance : DecidableRel capturedLe :=
  fun a b => inferInstanceAs (Decidable (a.capturedAt ≤ b.capturedAt))

instance : IsTotal InboxItem capturedLe :=
  ⟨fun a b => le_total a.capturedAt b.capturedAt⟩

instance : IsTrans InboxItem capturedLe :=
  ⟨fun _ _ _ hab hbc => le_trans hab hbc⟩

/-- Models Inbox::list from crates/nugget-inbox/src/lib.rs over the file
contents read from the inbox directory (in directory-read order): decode
each file, silently skip the ones that fail to decode, and stable-sort
the survivors by captured_at (Rust Vec::sort_by is a stable comparison
sort; insertionSort is the stable sort used here). -/
def listInbox (C : InboxYaml) (files : List (List Char)) : List InboxItem :=
  List.insertionSort capturedLe (files.filterMap (decodeInboxFile C))

-- ── Slug derivation (crates/nugget-inbox/src/lib.rs) ──

/-- Models slug_from_body from crates/nugget-inbox/src/lib.rs.  The
timestamp used for the fallback name is passed in as fallbackTs.  The
Unicode character table behind char::is_alphanumeric lives in the Rust
standard library, external to this repository, so the predicate is
passed in as the isAlphanumeric parameter; theorems constrain it to
agree with the ASCII table wherever the input is ASCII.  Char.toLower
models char::to_ascii_lowercase exactly: it lowers ASCII uppercase
letters and leaves every other character, non-ASCII included,
unchanged. -/
def slug_from_body (isAlphanumeric : Char → Bool)
    (body fallbackTs : List Char) : List Char :=
  let firstLine := ((rustLines body).head?).getD (("untitled").data)
  let mapped := (firstLine.take 60).map
    (fun c => if isAlphanumeric c then c.toLower else '-')
  let slug := ((mapped.dropWhile (fun c => c = '-')).reverse.dropWhile (fun c => c = '-')).reverse
  if slug = [] then ("item-").data ++ fallbackTs else slug

/-- Restatement of the amended claim C3 in its own words, over the same
external alphanumeric predicate: take the first line of the body (or
"untitled" when the body is empty), keep its first 60 characters,
replace every non-alphanumeric character by one hyphen (runs are not
collapsed) and ASCII-lowercase the rest, trim hyphens from both ends,
and fall back to an "item-" timestamp name when empty. -/
def slugAmendedSpec (isAlphanumeric : Char → Bool)
    (body fallbackTs : List Char) : List Char :=
  let firstLine :=
    match rustLines body with
    | [] => ("untitled").data
    | l :: _ => l
  let capped := firstLine.take 60
  let hyphenized := capped.map (fun c => if isAlphanumeric c then c.toLower else '-')
  let noLead := hyphenized.dropWhile (fun c => c = '-')
  let trimmed := (noLead.reverse.dropWhile (fun c => c = '-')).reverse
  if trimmed = [] then ("item-").data ++ fallbackTs else trimmed

-- ── Inbox staging state machine (crates/nugget-inbox/src/lib.rs) ──

/-- State of one brain on disk as the inbox operations see it: the
decodable pending files in list() order, and the knowledge files written
into domain directories.  File identity is the item value (pending
filenames are a deterministic function of captured_at and id). -/
structure InboxState where
  pending : List InboxItem
  filed : List InboxItem
deriving DecidableEq

/-- Models Inbox::accept for one entry: write the knowledge file into the
domain directory, then delete the pending file.  The deletion fails (as
fs::remove_file does) when the entry is no longer pending; the write has
happened either way. -/
def acceptEntry (s : InboxState) (e : InboxItem) : InboxState × Bool :=
  let s1 : InboxState := { s with filed := s.filed ++ [e] }
  if e ∈ s1.pending then ({ s1 with pending := s1.pending.erase e }, true)
  else (s1, false)

/-- Models Inbox::reject for one entry: delete the pending file. -/
def rejectEntry (s : InboxState) (e : InboxItem) : InboxState × Bool :=
  if e ∈ s.pending then ({ s with pending := s.pending.erase e }, true)
  else (s, false)

/-- Shared loop body of accept_by_indices and reject_by_indices: entries
is the snapshot taken by list() at entry; each 1-based index is validated
as it is reached, and the per-entry operation is accept or reject. -/
def batchGo (op : InboxState → InboxItem → InboxState × Bool)
    (entries : List InboxItem) : InboxState → List Nat → InboxState × Bool
  | s, [] => (s, true)
  | s, i :: rest =>
    if i = 0 ∨ entries.length < i then (s, false)
    else
      match entries[i - 1]? with
      | none => (s, false)
      | some e =>
        let r := op s e
        if r.2 then batchGo op entries r.1 rest else (r.1, false)

/-- Models Inbox::accept_by_indices from crates/nugget-inbox/src/lib.rs:
take a fresh list() snapshot, then process the 1-based indices in the
order given. -/
def accept_by_indices (s : InboxState) (idxs : List Nat) : InboxState × Bool :=
  batchGo acceptEntry s.pending s idxs

/-- Models Inbox::reject_by_indices from crates/nugget-inbox/src/lib.rs:
sort the indices ascending, deduplicate, and process in reverse
(descending) order against a fresh list() snapshot. -/
def reject_by_indices (s : InboxState) (idxs : List Nat) : InboxState × Bool :=
  batchGo rejectEntry s.pending s (((List.insertionSort (· ≤ ·) idxs).dedup).reverse)

-- ── Capture filter pipeline (crates/nugget-clipboard/src/lib.rs) ──

/-- Models length_check: drop text whose byte length is under 20. -/
def length_check (t : List Char) : Bool := decide (20 ≤ utf8Len t)

/-- Models shannon_entropy from crates/nugget-clipboard/src/lib.rs over
the reals: frequencies are per-character occurrence counts divided by the
UTF-8 byte length of the text (the source divides by str::len). -/
noncomputable def shannon_entropy (t : List Char) : ℝ :=
  if utf8Len t = 0 then 0
  else
    (t.dedup).foldl (fun acc c =>
      acc - ((t.count c : ℝ) / (utf8Len t : ℝ)) *
        Real.logb 2 ((t.count c : ℝ) / (utf8Len t : ℝ))) 0

/-- Models entropy_check: text containing a space character always
passes; otherwise pass exactly when the Shannon entropy is at most 4.5. -/
noncomputable def entropy_check (t : List Char) : Bool :=
  if ' ' ∈ t then true
  else @decide (shannon_entropy t ≤ 4.5) (Classical.propDecidable _)

/-- The code-introducer prefixes of code_detection, in source order. -/
def codePrefixes : List (List Char) :=
  [("fn ").data, ("def ").data, ("class ").data, ("import ").data,
   ("const ").data, ("let ").data, ("var ").data, ("function ").data]

/-- The bracket characters counted by code_detection. -/
def bracketChars : List Char := ['\x7b', '\x7d', '[', ']', '(', ')']

/-- Models code_detection: reject when a whitespace-trimmed line starts
with a code prefix, or when the bracket-to-byte ratio exceeds 0.1. -/
def code_detection (t : List Char) : Bool :=
  if (rustLines t).any (fun line =>
      codePrefixes.any (fun p => listStarts p (line.dropWhile Char.isWhitespace))) then false
  else if utf8Len t = 0 then true
  else if mkRat 1 10 < mkRat ((t.filter (fun c => c ∈ bracketChars)).length : Int) (utf8Len t)
    then false
  else true

/-- The scheme "https://". -/
def schemeHttps : List Char := ("https://").data

/-- The scheme "http://". -/
def schemeHttp : List Char := ("http://").data

/-- Characters excluded by the URL regex character class (whitespace is
excluded via Char.isWhitespace in urlCharOk). -/
def urlStopChars : List Char :=
  ['<', '>', '\"', '\x7b', '\x7d', '|', '\\', '^', '[', ']', '\x60']

/-- Whether a character may appear in the matched URL tail. -/
def urlCharOk (c : Char) : Bool := !(c.isWhitespace || urlStopChars.contains c)

/-- Models extract_url: the leftmost match of the regex
https?:// followed by one or more allowed characters. -/
def extract_url : List Char → Option (List Char)
  | [] => none
  | c :: t =>
    if listStarts schemeHttps (c :: t) then
      let run := ((c :: t).drop schemeHttps.length).takeWhile urlCharOk
      if run = [] then extract_url t else some (schemeHttps ++ run)
    else if listStarts schemeHttp (c :: t) then
      let run := ((c :: t).drop schemeHttp.length).takeWhile urlCharOk
      if run = [] then extract_url t else some (schemeHttp ++ run)
    else extract_url t

/-- Models extract_host: strip the scheme, take up to the first slash,
then up to the first colon. -/
def extract_host (url : List Char) : Option (List Char) :=
  let withoutScheme :=
    if listStarts schemeHttps url then some (url.drop schemeHttps.length)
    else if listStarts schemeHttp url then some (url.drop schemeHttp.length)
    else none
  match withoutScheme with
  | none => none
  | some ws =>
    let hostPort := ws.takeWhile (fun c => c ≠ '/')
    let host := hostPort.takeWhile (fun c => c ≠ ':')
    if host = [] then none else some host

/-- Models domain_filter: keep the URL unless its host equals, or is a
dot-separated subdomain of, an ignore-list entry. -/
def domain_filter (url : List Char) (ignoreDomains : List (List Char)) : Bool :=
  match extract_host url with
  | some h =>
    !(ignoreDomains.any (fun d => (h == d) || listEnds ('.' :: d) h))
  | none => true

/-- Models default_ignore_domains from crates/nugget-clipboard/src/lib.rs. -/
def default_ignore_domains : List (List Char) :=
  [("localhost").data, ("mail.google.com").data, ("accounts.google.com").data]

/-- Twenty-four hours in the seconds used for captured_at. -/
def hours24 : Int := 86400

/-- Models dedup_check: the URL is new unless some pending entry has the
same source and captured_at strictly greater than now minus 24 hours. -/
def dedup_check (url : List Char) (now : Int) (entries : List InboxItem) : Bool :=
  !(entries.any (fun e =>
      decide (now - hours24 < e.capturedAt) && (e.source == some url)))

/-- Models run_filter_pipeline from crates/nugget-clipboard/src/lib.rs.
The inbox listing consumed by dedup_check is passed in as entries, the
current time as now, and the configuration as its only consulted field,
ignoreDomains. -/
noncomputable def run_filter_pipeline (text : List Char)
    (ignoreDomains : List (List Char)) (entries : List InboxItem)
    (now : Int) : Option (List Char) :=
  if length_check text = false then none
  else if entropy_check text = false then none
  else if code_detection text = false then none
  else
    match extract_url text with
    | none => none
    | some url =>
      if domain_filter url ignoreDomains = false then none
      else if dedup_check url now entries = false then none
      else some url

-- ── Path-traversal guard (crates/nugget-mcp/src/lib.rs) ──

/-- A filesystem path as a list of components. -/
abbrev FsPath : Type := List (List Char)

/-- Symbolic resolution of dot and dot-dot components, as
fs::canonicalize performs on a symlink-free tree (going up from the root
stays at the root, as on Linux). -/
def canonicalizePath (p : FsPath) : FsPath :=
  p.foldl (fun acc comp =>
    if comp = ['.'] then acc
    else if comp = ['.', '.'] then acc.dropLast
    else acc ++ [comp]) []

/-- Models fs::canonicalize given the set of existing canonical paths:
errors when the resolved path does not exist. -/
def fsCanonicalize (fs : List FsPath) (p : FsPath) : Option FsPath :=
  if canonicalizePath p ∈ fs then some (canonicalizePath p) else none

/-- Outcome of the read_knowledge tool, by error class. -/
inductive ReadOutcome
  | ok (f : FsPath)
  | invalidPath
  | traversalDenied
deriving DecidableEq

/-- Models NuggetServer::read_knowledge from crates/nugget-mcp/src/lib.rs:
join the requested relative path onto the store root, canonicalize both,
deny unless the canonical request starts with the canonical root
(component-wise Path::starts_with), then read the canonical file. -/
def read_knowledge (fs : List FsPath) (root relpath : FsPath) : ReadOutcome :=
  match fsCanonicalize fs (root ++ relpath) with
  | none => ReadOutcome.invalidPath
  | some canonical =>
    match fsCanonicalize fs root with
    | none => ReadOutcome.invalidPath
    | some rootC =>
      if listStarts rootC canonical then ReadOutcome.ok canonical
      else ReadOutcome.traversalDenied

-- ── Serde decode defaults (types.rs and core lib.rs derive attributes) ──

/-- Models default_confidence from crates/nugget-core/src/types.rs. -/
def default_confidence : ℚ := mkRat 8 10

/-- Presence-or-absence view of a filed unit frontmatter block, one field
per serde field of KnowledgeUnit in types.rs. -/
structure UnitFields where
  id : Option (List Char)
  kind : Option KnowledgeType
  domain : Option (List Char)
  tags : Option (List (List Char))
  confidence : Option ℚ
  source : Option (List Char)
  related : Option (List Relation)
  created : Option Int
  lastModified : Option Int
deriving DecidableEq

/-- Field-level model of the derived Deserialize for KnowledgeUnit in
types.rs: id, type, domain, created and last_modified are required; tags,
source and related default to empty, confidence to default_confidence;
body is serde-skipped and defaults to empty. -/
def decodeUnitFields (f : UnitFields) : Option KnowledgeUnit :=
  match f.id, f.kind, f.domain, f.created, f.lastModified with
  | some i, some k, some d, some cr, some lm =>
    some { id := i, kind := k, domain := d, tags := f.tags.getD [],
           confidence := f.confidence.getD default_confidence,
           source := f.source.getD [], related := f.related.getD [],
           created := cr, lastModified := lm, body := [] }
  | _, _, _, _, _ => none

/-- Presence-or-absence view of an inbox item frontmatter block, one
field per serde field of InboxItem in crates/nugget-core/src/lib.rs. -/
structure ItemFields where
  id : Option (List Char)
  knowledgeType : Option KnowledgeType
  tags : Option (List (List Char))
  confidence : Option ℚ
  source : Option (Option (List Char))
  related : Option (List CoreRelation)
  suggestedDomain : Option (List Char)
  suggestedPath : Option (Option (List Char))
  capturedAt : Option Int
  captureMethod : Option CaptureMethod
  captureContext : Option (Option (List Char))
deriving DecidableEq

/-- Field-level model of the derived Deserialize for InboxItem in
crates/nugget-core/src/lib.rs: id, type, tags, confidence,
suggested_domain, captured_at and capture_method are required (tags and
confidence carry no serde default attribute in the source); source,
related, suggested_path and capture_context default; body is
serde-skipped. -/
def decodeItemFields (g : ItemFields) : Option InboxItem :=
  match g.id, g.knowledgeType, g.tags, g.confidence, g.suggestedDomain,
      g.capturedAt, g.captureMethod with
  | some i, some k, some tg, some cf, some sd, some ca, some cm =>
    some { id := i, knowledgeType := k, tags := tg, confidence := cf,
           source := g.source.getD none, related := g.related.getD [],
           suggestedDomain := sd, suggestedPath := g.suggestedPath.getD none,
           capturedAt := ca, captureMethod := cm,
           captureContext := g.captureContext.getD none, body := [] }
  | _, _, _, _, _, _, _ => none

-- ── Concrete sample codecs and records for witnesses ──

/-- A filed unit with the simplest field values. -/
def baseUnit : KnowledgeUnit :=
  { id := [], kind := KnowledgeType.concept, domain := [], tags := [],
    confidence := 1, source := [], related := [], created := 0,
    lastModified := 0, body := [] }

/-- A sample stand-in for the serde_yaml encoder: one id line. -/
def sampleUnitEnc (u : KnowledgeUnit) : List Char :=
  'i' :: 'd' :: ':' :: ' ' :: (u.id ++ ['\n'])

/-- A sample stand-in for the serde_yaml decoder matching sampleUnitEnc;
the slice handed over by split_frontmatter carries the trailing line
feed, which is dropped again here. -/
def sampleUnitDec (y : List Char) : Option KnowledgeUnit :=
  match y with
  | 'i' :: 'd' :: ':' :: ' ' :: rest => some { baseUnit with id := rest.dropLast }
  | _ => none

/-- The sample unit codec used to instantiate witnesses. -/
def sampleYaml : YamlCodec := { enc := sampleUnitEnc, dec := sampleUnitDec }

/-- An inbox item with the given capture time and the simplest other
field values. -/
def sampleItem (n : Int) : InboxItem :=
  { id := [], knowledgeType := KnowledgeType.concept, tags := [],
    confidence := 1, source := none, related := [], suggestedDomain := [],
    suggestedPath := none, capturedAt := n, captureMethod := CaptureMethod.manual,
    captureContext := none, body := [] }

/-- A sample stand-in for the serde_yaml inbox encoder: one line holding
a single digit of captured_at. -/
def sampleInboxEnc (it : InboxItem) : List Char :=
  't' :: ':' :: ' ' :: Char.ofNat (48 + it.capturedAt.toNat) :: ['\n']

/-- A sample stand-in for the serde_yaml inbox decoder matching
sampleInboxEnc; the inbox splitter hands over the YAML slice without its
trailing line feed. -/
def sampleInboxDec (y : List Char) : Option InboxItem :=
  match y with
  | ['t', ':', ' ', c] =>
    if c.isDigit then some (sampleItem ((c.toNat : Int) - 48)) else none
  | _ => none

/-- The sample inbox codec used to instantiate witnesses. -/
def sampleInboxYaml : InboxYaml := { enc := sampleInboxEnc, dec := sampleInboxDec }

/-- A sample rendered inbox file with the given capture time and body. -/
def sampleFile (n : Int) (body : List Char) : List Char :=
  render_inbox_file (sampleInboxEnc (sampleItem n)) body

/-- Thirty-two distinct one-byte characters, one of them a tab and none a
space: a whitespace-containing text the entropy stage rejects. -/
def entropySample : List Char := ("abcdefghijklmnopqrstuvwxyz01234\t").data

/-- A pending entry captured exactly twenty-four hours before the probe
time used in the C5 counterexample. -/
def boundaryEntry : InboxItem :=
  { sampleItem 0 with source := some (("https://example.com/a").data) }

-- ── Helper lemmas about the string primitives ──

theorem listStarts_iff {α : Type} [DecidableEq α] {pat s : List α} :
    listStarts pat s = true ↔ s.take pat.length = pat := by
  simp [listStarts]

theorem listStarts_append_left {α : Type} [DecidableEq α] (pat w : List α) :
    listStarts pat (pat ++ w) = true := by
  simp [listStarts, List.take_left]

theorem takeWhile_append_stop {α : Type} {p : α → Bool} {a : List α} (x : α) (b : List α)
    (ha : ∀ c ∈ a, p c = true) (hx : p x = false) :
    (a ++ x :: b).takeWhile p = a := by
  induction a with
  | nil => simp [List.takeWhile_cons, hx]
  | cons c a ih =>
    have hc : p c = true := ha c (by simp)
    simp only [List.cons_append, List.takeWhile_cons, hc, if_true]
    rw [ih (fun d hd => ha d (by simp [hd]))]

theorem takeWhile_append_all {α : Type} {p : α → Bool} {a : List α} (b : List α)
    (ha : ∀ c ∈ a, p c = true) :
    (a ++ b).takeWhile p = a ++ b.takeWhile p := by
  induction a with
  | nil => simp
  | cons c a ih =>
    have hc : p c = true := ha c (by simp)
    simp only [List.cons_append, List.takeWhile_cons, hc, if_true]
    rw [ih (fun d hd => ha d (by simp [hd]))]

theorem drop_append_cons {α : Type} (a : List α) (x : α) (b : List α) :
    (a ++ x :: b).drop (a.length + 1) = b := by
  rw [show a ++ x :: b = (a ++ [x]) ++ b by simp,
    show a.length + 1 = (a ++ [x]).length by simp]
  exact List.drop_left _ _

theorem mem_of_getLast?_eq {α : Type} {l : List α} {a : α}
    (h : l.getLast? = some a) : a ∈ l := by
  induction l with
  | nil => simp at h
  | cons c t ih =>
    cases t with
    | nil => simp_all
    | cons d t' =>
      rw [List.getLast?_cons_cons] at h
      exact List.mem_cons_of_mem _ (ih h)

theorem stripCr_of_not_mem {l : List Char} (h : '\r' ∉ l) : stripCr l = l := by
  unfold stripCr
  split
  case isTrue hc => exact absurd (mem_of_getLast?_eq hc) h
  case isFalse => rfl

theorem exists_line_decomp {Y : List Char} (h : '\n' ∈ Y) :
    ∃ l₀ Y₁, Y = l₀ ++ '\n' :: Y₁ ∧ '\n' ∉ l₀ := by
  induction Y with
  | nil => simp at h
  | cons c t ih =>
    by_cases hc : c = '\n'
    · exact ⟨[], t, by simp [hc], by simp⟩
    · have ht : '\n' ∈ t := by
        rcases List.mem_cons.mp h with h1 | h1
        · exact absurd h1.symm hc
        · exact h1
      obtain ⟨l₀, Y₁, hY, hl₀⟩ := ih ht
      refine ⟨c :: l₀, Y₁, by simp [hY], ?_⟩
      intro hmem
      rcases List.mem_cons.mp hmem with he | he
      · exact hc he.symm
      · exact hl₀ he

-- ── Lemmas about rustLines and the fence scan ──

theorem reverse_head_strip (cur : List Char) :
    (if cur.head? = some '\r' then cur.tail.reverse else cur.reverse) =
      stripCr cur.reverse := by
  unfold stripCr
  cases cur with
  | nil => simp
  | cons c cs =>
    simp only [List.head?_cons, List.tail_cons, List.reverse_cons]
    rw [List.getLast?_concat]
    by_cases hc : c = '\r'
    · simp [hc, List.dropLast_concat]
    · simp [hc]

theorem linesAux_break : ∀ (l₀ : List Char), '\n' ∉ l₀ → ∀ (cur t : List Char),
    linesAux cur (l₀ ++ '\n' :: t) = stripCr (cur.reverse ++ l₀) :: linesAux [] t := by
  intro l₀
  induction l₀ with
  | nil =>
    intro _ cur t
    simp [linesAux, reverse_head_strip]
  | cons c l₀ ih =>
    intro h cur t
    have hc : ¬ c = '\n' := fun he => h (by simp [he])
    have h' : '\n' ∉ l₀ := fun hm => h (by simp [hm])
    simp only [List.cons_append, linesAux, hc, if_false]
    show linesAux (c :: cur) (l₀ ++ '\n' :: t) = _
    rw [ih h' (c :: cur) t]
    simp

theorem linesAux_no_nl : ∀ (l cur : List Char), '\n' ∉ l →
    linesAux cur l = if cur.reverse ++ l = [] then [] else [cur.reverse ++ l] := by
  intro l
  induction l with
  | nil =>
    intro cur _
    simp [linesAux]
  | cons c t ih =>
    intro cur h
    have hc : ¬ c = '\n' := fun he => h (by simp [he])
    simp only [linesAux, hc, if_false]
    rw [ih (c :: cur) (fun hm => h (by simp [hm]))]
    simp

theorem rustLines_nil : rustLines [] = [] := rfl

theorem rustLines_cons_line {l₀ : List Char} (t : List Char) (h : '\n' ∉ l₀) :
    rustLines (l₀ ++ '\n' :: t) = stripCr l₀ :: rustLines t := by
  unfold rustLines
  rw [linesAux_break l₀ h [] t]
  simp

theorem rustLines_no_nl {l : List Char} (h : '\n' ∉ l) :
    rustLines l = if l = [] then [] else [l] := by
  unfold rustLines
  rw [linesAux_no_nl l [] h]
  simp

theorem listStarts_fence3_stripCr (w : List Char) :
    listStarts fence3 (stripCr (fence3 ++ w)) = true := by
  unfold stripCr
  split
  case isTrue hc =>
    cases w with
    | nil => simp [fence3] at hc
    | cons x w' =>
      rw [List.dropLast_append_of_ne_nil _ (by simp)]
      exact listStarts_append_left _ _
  case isFalse => exact listStarts_append_left _ _

theorem nl_not_mem_fence_append {zs : List Char} (h : '\n' ∉ zs) :
    '\n' ∉ fence3 ++ zs := by
  intro hm
  rcases List.mem_append.mp hm with hm | hm
  · simp [fence3] at hm
  · exact h hm

theorem fence_head (zs : List Char) (off : Nat) :
    fenceFold (rustLines (fence3 ++ zs)) off = some off := by
  by_cases h : '\n' ∈ zs
  · obtain ⟨a, b, hz, ha⟩ := exists_line_decomp h
    have hna : '\n' ∉ fence3 ++ a := nl_not_mem_fence_append ha
    rw [hz, show fence3 ++ (a ++ '\n' :: b) = (fence3 ++ a) ++ '\n' :: b by simp,
      rustLines_cons_line _ hna]
    simp [fenceFold, listStarts_fence3_stripCr]
  · rw [rustLines_no_nl (nl_not_mem_fence_append h),
      if_neg (by simp [fence3] : ¬ fence3 ++ zs = [])]
    simp only [fenceFold, listStarts_append_left, if_true]

theorem fence_skip : ∀ (n : Nat) (Y zs : List Char) (off : Nat),
    Y.length ≤ n →
    (∀ l ∈ rustLines Y, listStarts fence3 l = false) →
    (Y = [] ∨ Y.getLast? = some '\n') →
    '\r' ∉ Y →
    fenceFold (rustLines (Y ++ fence3 ++ zs)) off = some (off + Y.length) := by
  intro n
  induction n with
  | zero =>
    intro Y zs off hlen _ _ _
    have hY : Y = [] := List.length_eq_zero.mp (Nat.le_zero.mp hlen)
    subst hY
    simpa using fence_head zs off
  | succ n ih =>
    intro Y zs off hlen hy hnl hcr
    by_cases hY : Y = []
    · subst hY
      simpa using fence_head zs off
    · have hlast : Y.getLast? = some '\n' := hnl.resolve_left hY
      have hmem : '\n' ∈ Y := mem_of_getLast?_eq hlast
      obtain ⟨l₀, Y₁, hdec, hl₀⟩ := exists_line_decomp hmem
      have hcr₀ : '\r' ∉ l₀ := fun hc => hcr (hdec ▸ List.mem_append_left _ hc)
      have hcr₁ : '\r' ∉ Y₁ := fun hc =>
        hcr (hdec ▸ List.mem_append_right _ (List.mem_cons_of_mem _ hc))
      have hstrip : stripCr l₀ = l₀ := stripCr_of_not_mem hcr₀
      have hlines : rustLines Y = l₀ :: rustLines Y₁ := by
        rw [hdec, rustLines_cons_line _ hl₀, hstrip]
      have hfence₀ : listStarts fence3 l₀ = false := by
        apply hy; rw [hlines]; simp
      have hy₁ : ∀ l ∈ rustLines Y₁, listStarts fence3 l = false := by
        intro l hl; apply hy; rw [hlines]; simp [hl]
      have hnl₁ : Y₁ = [] ∨ Y₁.getLast? = some '\n' := by
        cases hY₁ : Y₁ with
        | nil => exact Or.inl rfl
        | cons d t =>
          right
          rw [hdec, hY₁] at hlast
          rwa [List.getLast?_append_of_ne_nil _ (by simp),
            List.getLast?_cons_cons] at hlast
      have hlen₁ : Y₁.length ≤ n := by
        have := congrArg List.length hdec
        simp at this
        omega
      have step : Y ++ fence3 ++ zs = l₀ ++ '\n' :: (Y₁ ++ fence3 ++ zs) := by
        rw [hdec]; simp
      rw [step, rustLines_cons_line _ hl₀, hstrip]
      simp only [fenceFold, hfence₀, Bool.false_eq_true, if_false]
      rw [ih Y₁ zs _ hlen₁ hy₁ hnl₁ hcr₁]
      have hYlen : Y.length = l₀.length + 1 + Y₁.length := by
        rw [hdec]; simp; omega
      rw [hYlen]
      congr 1
      omega

-- ── The codec round trip ──

theorem split_serialize (C : YamlCodec) (u : KnowledgeUnit)
    (hnl : (C.enc u).getLast? = some '\n')
    (hcr : '\r' ∉ C.enc u)
    (hfence : ∀ l ∈ rustLines (C.enc u), listStarts fence3 l = false) :
    split_frontmatter (serialize C u) =
      some (C.enc u,
        (if u.body = [] then []
         else '\n' :: (u.body ++ (if u.body.getLast? = some '\n' then [] else ['\n']))).dropWhile
          (fun c => c = '\n')) := by
  set Y := C.enc u with hY
  set B := (if u.body = [] then []
      else '\n' :: (u.body ++ (if u.body.getLast? = some '\n' then [] else ['\n']))) with hB
  have hclose : find_closing_fence (Y ++ fence3 ++ '\n' :: B) = some Y.length := by
    have h := fence_skip Y.length Y ('\n' :: B) 0 le_rfl hfence (Or.inr hnl) hcr
    simpa [find_closing_fence] using h
  have htake : (Y ++ fence3 ++ '\n' :: B).take Y.length = Y := by
    rw [List.append_assoc]; exact List.take_left _ _
  have hdropY : (Y ++ fence3 ++ '\n' :: B).drop Y.length = fence3 ++ '\n' :: B := by
    rw [List.append_assoc]; exact List.drop_left _ _
  have hdw : (serialize C u).dropWhile Char.isWhitespace =
      fence3 ++ '\n' :: (Y ++ fence3 ++ '\n' :: B) := rfl
  have hstart : listStarts fence3 (fence3 ++ '\n' :: (Y ++ fence3 ++ '\n' :: B)) = true :=
    listStarts_append_left _ _
  have hfindNl2 : findNl (fence3 ++ '\n' :: B) = some 3 := rfl
  simp only [split_frontmatter, hdw, hstart, if_true,
    show List.drop 3 (fence3 ++ '\n' :: (Y ++ fence3 ++ '\n' :: B)) =
      '\n' :: (Y ++ fence3 ++ '\n' :: B) from rfl]
  simp only [show findNl ('\n' :: (Y ++ fence3 ++ '\n' :: B)) = some 0 from rfl]
  simp only [List.drop_succ_cons, List.drop_zero]
  simp only [hclose, htake, hdropY, hfindNl2]
  simp only [show List.drop (3 + 1) (fence3 ++ '\n' :: B) = B from rfl]

theorem dropWhile_body (b : List Char) (hb : b.head? ≠ some '\n') :
    (if b = [] then []
     else '\n' :: (b ++ (if b.getLast? = some '\n' then [] else ['\n']))).dropWhile
      (fun c => c = '\n') = normalizeBody b := by
  cases b with
  | nil => simp [normalizeBody]
  | cons c t =>
    have hc : ¬ c = '\n' := fun he => hb (by simp [he])
    by_cases hl : (c :: t).getLast? = some '\n'
    · simp [normalizeBody, hl, List.dropWhile, hc]
    · simp [normalizeBody, hl, List.dropWhile, hc]

theorem parse_serialize (C : YamlCodec) (u : KnowledgeUnit)
    (hdec : C.dec (C.enc u) = some { u with body := [] })
    (hnl : (C.enc u).getLast? = some '\n')
    (hcr : '\r' ∉ C.enc u)
    (hfence : ∀ l ∈ rustLines (C.enc u), listStarts fence3 l = false)
    (hbody : u.body.head? ≠ some '\n') :
    parse C (serialize C u) = some { u with body := normalizeBody u.body } := by
  rw [parse, split_serialize C u hnl hcr hfence]
  simp only [hdec, dropWhile_body u.body hbody]

-- ── Lemmas about the inbox substring splitter ──

theorem findSubstr_self {pat : List Char} (hpat : pat ≠ []) (zs : List Char) :
    findSubstr pat (pat ++ zs) = some 0 := by
  cases pat with
  | nil => exact absurd rfl hpat
  | cons c t =>
    have hls : listStarts (c :: t) (c :: (t ++ zs)) = true := by
      have h := listStarts_append_left (c :: t) zs
      simpa using h
    show findSubstr (c :: t) (c :: (t ++ zs)) = some 0
    simp [findSubstr, hls]

theorem findSubstr_append_pat (pat : List Char) (hpat : pat ≠ []) :
    ∀ (a zs : List Char),
      (∀ a₂, a₂ ≠ [] → a₂ <:+ a → listStarts pat (a₂ ++ pat ++ zs) = false) →
      findSubstr pat (a ++ pat ++ zs) = some a.length := by
  intro a
  induction a with
  | nil =>
    intro zs _
    simpa using findSubstr_self hpat zs
  | cons c a ih =>
    intro zs h
    have hfalse : listStarts pat ((c :: a) ++ pat ++ zs) = false :=
      h (c :: a) (by simp) (List.suffix_refl _)
    have hrec := ih zs (fun a₂ hne hsuf =>
      h a₂ hne (hsuf.trans (List.suffix_cons c a)))
    show findSubstr pat (c :: (a ++ pat ++ zs)) = some (a.length + 1)
    rw [show findSubstr pat (c :: (a ++ pat ++ zs)) =
        (if listStarts pat (c :: (a ++ pat ++ zs)) then some 0
         else (findSubstr pat (a ++ pat ++ zs)).map (· + 1)) from rfl]
    rw [show listStarts pat (c :: (a ++ pat ++ zs)) = false from hfalse]
    rw [hrec]
    rfl

theorem findSubstr_yaml (Y : List Char) (hnl : Y.getLast? = some '\n')
    (hinf : ¬ nlFence <:+: Y) (zs : List Char) :
    findSubstr nlFence (Y ++ fence3 ++ zs) = some (Y.length - 1) := by
  obtain ⟨Y', hY'⟩ := List.getLast?_eq_some_iff.mp hnl
  subst hY'
  have hshape : Y' ++ ['\n'] ++ fence3 ++ zs = Y' ++ nlFence ++ zs := by
    simp [nlFence]
  have hcond : ∀ a₂, a₂ ≠ [] → a₂ <:+ Y' →
      listStarts nlFence (a₂ ++ nlFence ++ zs) = false := by
    intro a₂ hne hsuf
    by_contra hpos
    have htrue : listStarts nlFence (a₂ ++ nlFence ++ zs) = true := by
      cases h : listStarts nlFence (a₂ ++ nlFence ++ zs)
      · exact absurd h hpos
      · rfl
    rw [listStarts_iff] at htrue
    match a₂, hne, hsuf, htrue with
    | [], h, _, _ => exact absurd rfl h
    | [c1], _, _, htrue => simp [nlFence, fence3] at htrue
    | [c1, c2], _, _, htrue => simp [nlFence, fence3] at htrue
    | [c1, c2, c3], _, _, htrue => simp [nlFence, fence3] at htrue
    | c1 :: c2 :: c3 :: c4 :: rest, _, hsuf, htrue =>
      have ha₂ : c1 :: c2 :: c3 :: c4 :: rest = nlFence ++ rest := by
        simp [nlFence, fence3] at htrue
        simp [nlFence, fence3, htrue.1, htrue.2.1, htrue.2.2.1, htrue.2.2.2]
      obtain ⟨w, hw⟩ := hsuf
      apply hinf
      refine ⟨w, rest ++ ['\n'], ?_⟩
      rw [← hw, ha₂]
      simp
  rw [hshape, findSubstr_append_pat nlFence (by simp [nlFence]) Y' zs hcond]
  simp

theorem inbox_split_render (Y body : List Char)
    (hnl : Y.getLast? = some '\n')
    (hinf : ¬ nlFence <:+: Y) :
    inbox_split_frontmatter (render_inbox_file Y body) =
      (some Y.dropLast, (body ++ ['\n']).dropWhile (fun c => c = '\n')) := by
  have hY1 : 1 ≤ Y.length := by
    obtain ⟨Y', h⟩ := List.getLast?_eq_some_iff.mp hnl
    subst h; simp
  have hcontent : render_inbox_file Y body =
      openFence ++ (Y ++ fence3 ++ ('\n' :: '\n' :: (body ++ ['\n']))) := by
    simp [render_inbox_file, openFence]
  have hstart : listStarts openFence (render_inbox_file Y body) = true := by
    rw [hcontent]; exact listStarts_append_left _ _
  have hdrop4 : (render_inbox_file Y body).drop openFence.length =
      Y ++ fence3 ++ ('\n' :: '\n' :: (body ++ ['\n'])) := by
    rw [hcontent]
    exact List.drop_left' rfl
  have hfind : findSubstr nlFence ((render_inbox_file Y body).drop 4) =
      some (Y.length - 1) := by
    rw [show (4 : Nat) = openFence.length from rfl, hdrop4]
    exact findSubstr_yaml Y hnl hinf _
  have hyaml : ((render_inbox_file Y body).drop 4).take (Y.length - 1) = Y.dropLast := by
    rw [show (4 : Nat) = openFence.length from rfl, hdrop4, List.append_assoc,
      List.take_append_eq_append_take]
    have h1 : Y.length - 1 - Y.length = 0 := by omega
    rw [h1]
    simp [List.dropLast_eq_take]
  have hlen : (render_inbox_file Y body).length = Y.length + body.length + 10 := by
    rw [hcontent]; simp [openFence, fence3]; omega
  have hbodyStart : 4 + (Y.length - 1) + 4 < (render_inbox_file Y body).length := by
    omega
  have hdropBody : (render_inbox_file Y body).drop (4 + (Y.length - 1) + 4) =
      '\n' :: '\n' :: (body ++ ['\n']) := by
    rw [hcontent,
      show openFence ++ (Y ++ fence3 ++ ('\n' :: '\n' :: (body ++ ['\n']))) =
        (openFence ++ Y ++ fence3) ++ ('\n' :: '\n' :: (body ++ ['\n'])) by simp]
    exact List.drop_left' (by simp [openFence, fence3]; omega)
  simp only [inbox_split_frontmatter, hstart, if_true, hfind, hyaml,
    if_pos hbodyStart, hdropBody]
  simp [List.dropWhile]

-- ── Claim C10 ──

/-- Claim C10 (corrected).  The inbox renderer writes frontmatter, a blank
line, the body and one unconditionally appended line feed, and the inbox
reader strips only leading line feeds; hence, amended: for every inbox
item whose body is non-empty and does not begin with a line feed (under
codec hypotheses matching serde_yaml), add followed by list returns the
body with exactly one appended line feed — one more even when the body
already ends in one, unlike the codec serialize.  The claim as stated is
false for the empty body, which comes back empty instead of as a single
newline, and for bodies beginning with line feeds (counterexample). -/
theorem c10_inbox_roundtrip (C : InboxYaml) (it : InboxItem)
    (hdec : C.dec ((C.enc it).dropLast) = some { it with body := [] })
    (hnl : (C.enc it).getLast? = some '\n')
    (hinf : ¬ nlFence <:+: (C.enc it))
    (hne : it.body ≠ []) (hhead : it.body.head? ≠ some '\n') :
    decodeInboxFile C (render_inbox_file (C.enc it) it.body) =
      some { it with body := it.body ++ ['\n'] } := by
  have hdw : (it.body ++ ['\n']).dropWhile (fun c => c = '\n') = it.body ++ ['\n'] := by
    cases hb : it.body with
    | nil => exact absurd hb hne
    | cons c t =>
      have hc : ¬ c = '\n' := fun he => hhead (by simp [hb, he])
      simp [List.dropWhile, hc]
  simp only [decodeInboxFile, inbox_split_render (C.enc it) it.body hnl hinf,
    hdec, hdw]

/-- Witness for C10: a two-character body with no trailing line feed gains
exactly one. -/
theorem c10_inbox_roundtrip_witness :
    decodeInboxFile sampleInboxYaml
        (render_inbox_file (sampleInboxEnc { sampleItem 3 with body := ['a', 'b'] })
          ['a', 'b']) =
      some { sampleItem 3 with body := ['a', 'b', '\n'] } := by
  have h := c10_inbox_roundtrip sampleInboxYaml { sampleItem 3 with body := ['a', 'b'] }
    (by decide) (by decide) (by decide) (by decide) (by decide)
  exact h.trans (by decide)

/-- Counterexample for C10 as stated: the empty body does not end in a
newline, so the claim demands it come back as one line feed, but it comes
back empty; and a body beginning with a line feed loses it. -/
theorem c10_inbox_roundtrip_counterexample :
    ((sampleItem 3).body = [] ∧
      (decodeInboxFile sampleInboxYaml
            (render_inbox_file (sampleInboxEnc (sampleItem 3)) (sampleItem 3).body)).map
          InboxItem.body ≠
        some ((sampleItem 3).body ++ ['\n'])) ∧
      (decodeInboxFile sampleInboxYaml
            (render_inbox_file (sampleInboxEnc { sampleItem 4 with body := ['\n', 'x'] })
              ['\n', 'x'])).map
          InboxItem.body ≠
        some (['\n', 'x'] ++ ['\n']) := by
  decide

/-- Claim C1 (corrected).  For every knowledge record whose body does not
begin with a line feed, and every frontmatter field codec behaving as
serde_yaml does on that record (decoding inverts encoding, the encoded
block ends in a line feed, holds no carriage return, and none of its
lines starts with a fence), parse of serialize succeeds and returns the
record field-for-field, with the body preserved exactly except that a
missing trailing line feed is added and an empty body stays empty.  The
claim as stated is false for bodies that begin with line feeds, which are
stripped on reparse; the counterexample below shows a newline-only body
coming back empty. -/
theorem c1_codec_roundtrip (C : YamlCodec) (u : KnowledgeUnit)
    (hdec : C.dec (C.enc u) = some { u with body := [] })
    (hnl : (C.enc u).getLast? = some '\n')
    (hcr : '\r' ∉ C.enc u)
    (hfence : ∀ l ∈ rustLines (C.enc u), listStarts fence3 l = false)
    (hbody : u.body.head? ≠ some '\n') :
    parse C (serialize C u) = some { u with body := normalizeBody u.body } :=
  parse_serialize C u hdec hnl hcr hfence hbody

/-- Witness for C1: the sample codec and a one-character body with no
trailing newline; the reparsed body gains exactly one line feed. -/
theorem c1_codec_roundtrip_witness :
    parse sampleYaml (serialize sampleYaml { baseUnit with id := ['a'], body := ['x'] }) =
      some { baseUnit with id := ['a'], body := ['x', '\n'] } := by
  have h := c1_codec_roundtrip sampleYaml { baseUnit with id := ['a'], body := ['x'] }
    (by decide) (by decide) (by decide) (by decide) (by decide)
  exact h.trans (by decide)

/-- Counterexample for C1 as stated: the body made of a single line feed
already ends with a newline, so the claim demands it be reparsed exactly,
but the round trip returns an empty body. -/
theorem c1_codec_roundtrip_counterexample :
    (({ baseUnit with id := ['a'], body := ['\n'] } : KnowledgeUnit).body.getLast? =
        some '\n') ∧
      (parse sampleYaml
            (serialize sampleYaml { baseUnit with id := ['a'], body := ['\n'] })).map
          KnowledgeUnit.body ≠
        some ({ baseUnit with id := ['a'], body := ['\n'] } : KnowledgeUnit).body := by
  decide

-- ── Claim C7 ──

/-- Claim C7 (corrected).  First part: for content made of fence-free,
newline-terminated lines FREE OF CARRIAGE RETURNS followed by a line
that starts with the fence, the closing-fence scan returns exactly the
offset of that line.  The carriage-return restriction is the correction:
the scan advances per line by the CR-stripped length plus one, so with
CRLF header lines it undercounts the byte offset and the fence is
mis-sliced — the claim's for-every-input form is false of the code (see
the counterexample).  Second part: for every record (under the C1 codec
hypotheses, with a body that does not begin with a line feed) whose body
contains a horizontal-rule line, parsing the serialized form — which is
always LF-only — still slices the YAML block at the true closing fence,
and the body comes back as literal text, unchanged or with exactly one
appended line feed. -/
theorem c7_fence_scanning :
    (∀ ys zs : List Char,
      (∀ l ∈ rustLines ys, listStarts fence3 l = false) →
      (ys = [] ∨ ys.getLast? = some '\n') →
      '\r' ∉ ys →
      find_closing_fence (ys ++ fence3 ++ zs) = some ys.length) ∧
    (∀ (C : YamlCodec) (u : KnowledgeUnit),
      C.dec (C.enc u) = some { u with body := [] } →
      (C.enc u).getLast? = some '\n' →
      '\r' ∉ C.enc u →
      (∀ l ∈ rustLines (C.enc u), listStarts fence3 l = false) →
      u.body.head? ≠ some '\n' →
      (∃ l ∈ rustLines u.body, listStarts fence3 l = true) →
      split_frontmatter (serialize C u) = some (C.enc u, normalizeBody u.body) ∧
        (normalizeBody u.body = u.body ∨ normalizeBody u.body = u.body ++ ['\n'])) := by
  constructor
  · intro ys zs hy hnl hcr
    have h := fence_skip ys.length ys zs 0 le_rfl hy hnl hcr
    simpa [find_closing_fence] using h
  · intro C u hdec hnl hcr hfence hbody _
    constructor
    · rw [split_serialize C u hnl hcr hfence, dropWhile_body u.body hbody]
    · unfold normalizeBody
      by_cases h0 : u.body = []
      · simp [h0]
      · by_cases h1 : u.body.getLast? = some '\n'
        · simp [h0, h1]
        · simp [h0, h1]

/-- Witness for C7: a concrete fence-free YAML block for the first part,
and the sample codec with a body containing a horizontal rule for the
second. -/
theorem c7_fence_scanning_witness :
    find_closing_fence ((("k: v\n").data) ++ fence3 ++ (("\nrest").data)) = some 5 ∧
      (split_frontmatter
          (serialize sampleYaml
            { baseUnit with id := ['a'], body := ("x\n---\ny").data }) =
        some (sampleUnitEnc { baseUnit with id := ['a'], body := ("x\n---\ny").data },
          normalizeBody (("x\n---\ny").data)) ∧
        (normalizeBody (("x\n---\ny").data) = ("x\n---\ny").data ∨
          normalizeBody (("x\n---\ny").data) = ("x\n---\ny").data ++ ['\n'])) := by
  constructor
  · exact c7_fence_scanning.1 (("k: v\n").data) (("\nrest").data)
      (by decide) (by decide) (by decide)
  · exact c7_fence_scanning.2 sampleYaml
      { baseUnit with id := ['a'], body := ("x\n---\ny").data }
      (by decide) (by decide) (by decide) (by decide) (by decide)
      ⟨("---").data, by decide, by decide⟩

/-- Counterexample for C7 as stated: a CRLF-terminated header line.  The
first line of the post-opening text is "id: x" with a carriage return
and line feed, seven bytes, so the fence line starts at offset seven;
the scan strips the carriage return before measuring and returns offset
six, which is not the start of a line beginning with the fence.  Parsing
the whole input therefore keeps the carriage return inside the YAML
slice and returns the fence line itself as the start of the body, so the
fence taken is not the first subsequent line starting with three dashes
measured from the start of a line. -/
theorem c7_fence_scanning_counterexample :
    find_closing_fence (("id: x\r\n---\n\nbody").data) = some 6 ∧
      listStarts fence3 ((("id: x\r\n---\n\nbody").data).drop 7) = true ∧
      listStarts fence3 ((("id: x\r\n---\n\nbody").data).drop 6) = false ∧
      split_frontmatter (("---\nid: x\r\n---\n\nbody").data) =
        some ((("id: x\r").data), (("---\n\nbody").data)) ∧
      listStarts fence3 (("---\n\nbody").data) = true := by
  decide

-- ── Claim C3 ──

/-- Claim C3 (corrected).  The accept slug is derived from the first line
of the body (or "untitled" for an empty body), capped to the first 60
source characters, with every alphanumeric character (per the Unicode
char::is_alphanumeric predicate, abstracted as a parameter)
ASCII-lowercased — non-ASCII alphanumerics are kept unchanged, since
to_ascii_lowercase only lowers ASCII — and every non-alphanumeric
character replaced by one hyphen; runs of non-alphanumeric characters
are NOT collapsed into a single hyphen, which is the correction to the
claim; the result is trimmed of leading and trailing hyphens, with a
timestamp-based "item-" fallback name when empty.  The first conjunct
equates the source model with the amended-claim restatement for every
alphanumeric predicate, the true Unicode table included; the examples
hold for every predicate that agrees with the ASCII table on ASCII
characters, which the real table does. -/
theorem c3_slug_derivation :
    (∀ (isAl : Char → Bool) (body fallbackTs : List Char),
      slug_from_body isAl body fallbackTs = slugAmendedSpec isAl body fallbackTs) ∧
    (∀ isAl : Char → Bool, (∀ c : Char, c.toNat < 128 → isAl c = c.isAlphanum) →
      (∀ ts : List Char,
        slug_from_body isAl (("Hello World!").data) ts = ("hello-world").data) ∧
      (∀ ts : List Char,
        slug_from_body isAl (("  ").data) ts = ("item-").data ++ ts)) := by
  constructor
  · intro isAl body ts
    unfold slug_from_body slugAmendedSpec
    cases h : rustLines body <;> simp [h]
  · intro isAl hasc
    have hato : ∀ l : List Char, (∀ c ∈ l, c.toNat < 128) →
        l.map (fun c => if isAl c then c.toLower else '-') =
          l.map (fun c => if c.isAlphanum then c.toLower else '-') := by
      intro l hl
      apply List.map_congr_left
      intro c hc
      rw [hasc c (hl c hc)]
    constructor
    · intro ts
      simp only [slug_from_body]
      rw [show ((rustLines (("Hello World!").data)).head?).getD (("untitled").data) =
          ("Hello World!").data from by decide]
      rw [show (("Hello World!").data).take 60 = ("Hello World!").data from by decide]
      rw [hato _ (by decide)]
      rfl
    · intro ts
      simp only [slug_from_body]
      rw [show ((rustLines (("  ").data)).head?).getD (("untitled").data) =
          ("  ").data from by decide]
      rw [show (("  ").data).take 60 = ("  ").data from by decide]
      rw [hato _ (by decide)]
      rfl

/-- Witness for C3: the amended theorem instantiated at the ASCII table
itself (which trivially agrees with the ASCII table on ASCII). -/
theorem c3_slug_derivation_witness :
    slug_from_body Char.isAlphanum (("Hello World!").data) [] = ("hello-world").data ∧
      slug_from_body Char.isAlphanum (("  ").data) (("TS").data) =
        ("item-").data ++ (("TS").data) :=
  ⟨(c3_slug_derivation.2 Char.isAlphanum (fun _ _ => rfl)).1 [],
    (c3_slug_derivation.2 Char.isAlphanum (fun _ _ => rfl)).2 (("TS").data)⟩

/-- Counterexample for C3 as stated: two consecutive spaces are claimed
to collapse into one hyphen, but each space becomes its own hyphen (the
input is pure ASCII, so the ASCII table instance computes exactly what
the program does on it). -/
theorem c3_slug_derivation_counterexample :
    slug_from_body Char.isAlphanum (("a  b").data) [] = ("a--b").data ∧
      ("a--b").data ≠ ("a-b").data := by
  decide

-- ── Claim C8 ──

/-- Claim C8 (corrected).  For filed knowledge units (types.rs), absent
tags and related decode to empty and absent confidence to the fixed
default 0.8, as claimed.  For inbox candidates (core lib.rs), however,
tags and confidence carry no serde default: decoding fails when either is
absent, so no 0.7 decode default exists; only absent source, related,
suggested_path and capture_context default.  The fixed 0.7 appears solely
in InboxItem::new, the construction-time default. -/
theorem c8_decode_defaults :
    (∀ (i d : List Char) (k : KnowledgeType) (cr lm : Int),
      decodeUnitFields
          { id := some i, kind := some k, domain := some d, tags := none,
            confidence := none, source := none, related := none,
            created := some cr, lastModified := some lm } =
        some { id := i, kind := k, domain := d, tags := [],
               confidence := default_confidence, source := [], related := [],
               created := cr, lastModified := lm, body := [] }) ∧
    default_confidence = 8/10 ∧
    (∀ g : ItemFields, g.confidence = none → decodeItemFields g = none) ∧
    (∀ g : ItemFields, g.tags = none → decodeItemFields g = none) ∧
    (∀ (i sd : List Char) (k : KnowledgeType) (tg : List (List Char)) (cf : ℚ)
        (ca : Int) (cm : CaptureMethod),
      decodeItemFields
          { id := some i, knowledgeType := some k, tags := some tg,
            confidence := some cf, source := none, related := none,
            suggestedDomain := some sd, suggestedPath := none,
            capturedAt := some ca, captureMethod := some cm,
            captureContext := none } =
        some { id := i, knowledgeType := k, tags := tg, confidence := cf,
               source := none, related := [], suggestedDomain := sd,
               suggestedPath := none, capturedAt := ca, captureMethod := cm,
               captureContext := none, body := [] }) ∧
    (∀ (k : KnowledgeType) (sd : List Char) (cm : CaptureMethod)
        (body fid : List Char) (now : Int),
      (inboxItemNew k sd cm body fid now).confidence = 7/10) := by
  refine ⟨fun i d k cr lm => rfl, ?_, ?_, ?_, fun i sd k tg cf ca cm => rfl, ?_⟩
  · rw [default_confidence, Rat.mkRat_eq_div]
    norm_num
  · intro g hg
    unfold decodeItemFields
    split
    · next i k tg cf sd ca cm h1 h2 h3 h4 h5 h6 h7 =>
      rw [hg] at h4
      exact absurd h4 (by simp)
    · rfl
  · intro g hg
    unfold decodeItemFields
    split
    · next i k tg cf sd ca cm h1 h2 h3 h4 h5 h6 h7 =>
      rw [hg] at h3
      exact absurd h3 (by simp)
    · rfl
  · intro k sd cm body fid now
    show confidenceNew (mkRat 7 10) = 7/10
    rw [confidenceNew, Rat.mkRat_eq_div]
    norm_num

/-- Witness for C8: the hypothesis-carrying conjuncts applied to a
concrete frontmatter block missing its confidence field, and one missing
its tags field. -/
theorem c8_decode_defaults_witness :
    decodeItemFields
        { id := some ['x'], knowledgeType := some KnowledgeType.bug, tags := some [],
          confidence := none, source := none, related := none,
          suggestedDomain := some ['d'], suggestedPath := none, capturedAt := some 1,
          captureMethod := some CaptureMethod.manual, captureContext := none } =
      none ∧
    decodeItemFields
        { id := some ['x'], knowledgeType := some KnowledgeType.bug, tags := none,
          confidence := some 1, source := none, related := none,
          suggestedDomain := some ['d'], suggestedPath := none, capturedAt := some 1,
          captureMethod := some CaptureMethod.manual, captureContext := none } =
      none :=
  ⟨c8_decode_defaults.2.2.1 _ rfl, c8_decode_defaults.2.2.2.1 _ rfl⟩

/-- Counterexample for C8 as stated: an inbox candidate block with every
required field except confidence is claimed to decode with confidence
0.7, but decoding fails. -/
theorem c8_decode_defaults_counterexample :
    decodeItemFields
        { id := some ['x'], knowledgeType := some KnowledgeType.concept,
          tags := some [], confidence := none, source := none, related := none,
          suggestedDomain := some ['d'], suggestedPath := none, capturedAt := some 1,
          captureMethod := some CaptureMethod.clipboardUrl, captureContext := none } =
      none := by
  decide

-- ── Claim C9 ──

theorem fsCanonicalize_eq_some {fs : List FsPath} {p c : FsPath}
    (h : fsCanonicalize fs p = some c) : c = canonicalizePath p := by
  unfold fsCanonicalize at h
  split at h
  · exact (Option.some.injEq _ _ ▸ h).symm
  · exact absurd h (by simp)

/-- Claim C9 (confirmed).  A successful read_knowledge only ever reads
the file whose canonical path is the canonicalized join of the store root
and the request, and that path starts with the canonical store root; and
whenever both canonicalizations succeed but the resolved path does not
start with the canonical root, the request is rejected with the
path-traversal error. -/
theorem c9_path_traversal_guard (fs : List FsPath) (root relpath : FsPath) :
    (∀ f, read_knowledge fs root relpath = ReadOutcome.ok f →
      f = canonicalizePath (root ++ relpath) ∧
      listStarts (canonicalizePath root) f = true) ∧
    (∀ c rc, fsCanonicalize fs (root ++ relpath) = some c →
      fsCanonicalize fs root = some rc →
      listStarts rc c = false →
      read_knowledge fs root relpath = ReadOutcome.traversalDenied) := by
  constructor
  · intro f hok
    unfold read_knowledge at hok
    cases h1 : fsCanonicalize fs (root ++ relpath) with
    | none => rw [h1] at hok; exact absurd hok (by simp)
    | some c =>
      rw [h1] at hok
      cases h2 : fsCanonicalize fs root with
      | none => rw [h2] at hok; exact absurd hok (by simp)
      | some rc =>
        rw [h2] at hok
        have hok' : (if listStarts rc c = true then ReadOutcome.ok c
            else ReadOutcome.traversalDenied) = ReadOutcome.ok f := hok
        by_cases h3 : listStarts rc c = true
        · rw [if_pos h3] at hok'
          have hfc : c = f := by simpa using hok'
          subst hfc
          exact ⟨fsCanonicalize_eq_some h1,
            by rw [← fsCanonicalize_eq_some h2]; exact h3⟩
        · rw [if_neg h3] at hok'
          exact absurd hok' (by simp)
  · intro c rc h1 h2 h3
    unfold read_knowledge
    rw [h1, h2]
    show (if listStarts rc c = true then ReadOutcome.ok c
        else ReadOutcome.traversalDenied) = _
    rw [h3]
    simp

/-- Witness for C9: a concrete store with a file outside the root reached
through dot-dot is denied, and an in-root read returns the canonical
in-root file. -/
theorem c9_path_traversal_guard_witness :
    read_knowledge
        [[("home").data, ("brain").data], [("home").data, ("secret").data]]
        [("home").data, ("brain").data] [("..").data, ("secret").data] =
      ReadOutcome.traversalDenied ∧
    (([("home").data, ("brain").data] : FsPath) =
        canonicalizePath (([("home").data, ("brain").data] : FsPath) ++ []) ∧
      listStarts (canonicalizePath [("home").data, ("brain").data])
          ([("home").data, ("brain").data] : FsPath) = true) := by
  constructor
  · exact (c9_path_traversal_guard
      [[("home").data, ("brain").data], [("home").data, ("secret").data]]
      [("home").data, ("brain").data] [("..").data, ("secret").data]).2
      ([("home").data, ("secret").data]) ([("home").data, ("brain").data])
      (by decide) (by decide) (by decide)
  · exact (c9_path_traversal_guard
      [[("home").data, ("brain").data], [("home").data, ("secret").data]]
      [("home").data, ("brain").data] []).1
      ([("home").data, ("brain").data]) (by decide)

-- ── Claim C2 ──

theorem batchGo_true_valid (op : InboxState → InboxItem → InboxState × Bool)
    (entries : List InboxItem) :
    ∀ (idxs : List Nat) (s : InboxState),
      (batchGo op entries s idxs).2 = true →
      ∀ i ∈ idxs, i ≠ 0 ∧ i ≤ entries.length := by
  intro idxs
  induction idxs with
  | nil =>
    intro s _ i hi
    simp at hi
  | cons j g ih =>
    intro s hs i hi
    by_cases hj : j = 0 ∨ entries.length < j
    · rw [show batchGo op entries s (j :: g) = (s, false) from by simp [batchGo, hj]] at hs
      simp at hs
    · cases hg : entries[j - 1]? with
      | none =>
        rw [show batchGo op entries s (j :: g) = (s, false) from by
          simp [batchGo, hj, hg]] at hs
        simp at hs
      | some e =>
        cases hr : (op s e).2 with
        | false =>
          rw [show batchGo op entries s (j :: g) = ((op s e).1, false) from by
            simp [batchGo, hj, hg, hr]] at hs
          simp at hs
        | true =>
          have hstep : batchGo op entries s (j :: g) = batchGo op entries (op s e).1 g := by
            simp [batchGo, hj, hg, hr]
          rcases List.mem_cons.mp hi with rfl | hi'
          · push_neg at hj
            exact ⟨hj.1, by omega⟩
          · exact ih (op s e).1 (by rw [hstep] at hs; exact hs) i hi'

theorem batchGo_append_invalid (op : InboxState → InboxItem → InboxState × Bool)
    (entries : List InboxItem) :
    ∀ (good : List Nat) (b : Nat) (rest : List Nat) (s : InboxState),
      (b = 0 ∨ entries.length < b) →
      batchGo op entries s (good ++ b :: rest) = ((batchGo op entries s good).1, false) := by
  intro good
  induction good with
  | nil =>
    intro b rest s hb
    simp [batchGo, hb]
  | cons j g ih =>
    intro b rest s hb
    by_cases hj : j = 0 ∨ entries.length < j
    · simp [batchGo, hj]
    · cases hg : entries[j - 1]? with
      | none => simp [batchGo, hj, hg]
      | some e =>
        cases hr : (op s e).2 with
        | true =>
          have h1 : batchGo op entries s ((j :: g) ++ b :: rest) =
              batchGo op entries (op s e).1 (g ++ b :: rest) := by
            simp [batchGo, hj, hg, hr]
          have h2 : batchGo op entries s (j :: g) = batchGo op entries (op s e).1 g := by
            simp [batchGo, hj, hg, hr]
          rw [h1, h2]
          exact ih b rest (op s e).1 hb
        | false =>
          have h1 : batchGo op entries s ((j :: g) ++ b :: rest) = ((op s e).1, false) := by
            simp [batchGo, hj, hg, hr]
          have h2 : batchGo op entries s (j :: g) = ((op s e).1, false) := by
            simp [batchGo, hj, hg, hr]
          rw [h1, h2]

/-- Claim C2 (corrected).  Every batch containing an out-of-range index
(zero or above the pending count) does fail as a whole, for accept and
reject alike (first conjunct), but the inbox is NOT always left
unmodified: accept applies each index as it is reached, so the entries at
valid indices before the first bad one are already filed and deleted when
the error is raised (fourth conjunct); reject processes indices in
descending order, so an index above the pending count fails before any
deletion and leaves the state unchanged (second conjunct), while a zero
index sorts first and is processed last, so the batch fails only after
all the larger deduplicated indices have been processed, each valid one
deleted (third conjunct).  The counterexample shows both sides modifying
the inbox before the failure. -/
theorem c2_batch_index_validation :
    (∀ (s : InboxState) (idxs : List Nat),
      (∃ i ∈ idxs, i = 0 ∨ s.pending.length < i) →
      (accept_by_indices s idxs).2 = false ∧ (reject_by_indices s idxs).2 = false) ∧
    (∀ (s : InboxState) (idxs : List Nat) (i : Nat),
      i ∈ idxs → s.pending.length < i →
      reject_by_indices s idxs = (s, false)) ∧
    (∀ (s : InboxState) (idxs : List Nat), 0 ∈ idxs →
      ∃ rest, (List.insertionSort (· ≤ ·) idxs).dedup = 0 :: rest ∧
        reject_by_indices s idxs =
          ((batchGo rejectEntry s.pending s rest.reverse).1, false)) ∧
    (∀ (s : InboxState) (good : List Nat) (b : Nat) (rest : List Nat),
      (b = 0 ∨ s.pending.length < b) →
      accept_by_indices s (good ++ b :: rest) = ((accept_by_indices s good).1, false)) := by
  refine ⟨?_, ?_, ?_, ?_⟩
  · intro s idxs ⟨i, hi, hbad⟩
    constructor
    · cases h : (accept_by_indices s idxs).2 with
      | false => rfl
      | true =>
        have hv := batchGo_true_valid acceptEntry s.pending idxs s h i hi
        rcases hbad with h0 | hlen
        · exact absurd h0 hv.1
        · omega
    · cases h : (reject_by_indices s idxs).2 with
      | false => rfl
      | true =>
        have him : i ∈ ((List.insertionSort (· ≤ ·) idxs).dedup).reverse := by
          rw [List.mem_reverse, List.mem_dedup]
          exact ((List.perm_insertionSort (· ≤ ·) idxs).mem_iff).mpr hi
        have hv := batchGo_true_valid rejectEntry s.pending _ s h i him
        rcases hbad with h0 | hlen
        · exact absurd h0 hv.1
        · omega
  · intro s idxs i hi hlen
    have him : i ∈ (List.insertionSort (· ≤ ·) idxs).dedup := by
      rw [List.mem_dedup]
      exact ((List.perm_insertionSort (· ≤ ·) idxs).mem_iff).mpr hi
    have hsorted : List.Sorted (· ≤ ·) ((List.insertionSort (· ≤ ·) idxs).dedup) :=
      List.Pairwise.sublist (List.dedup_sublist _)
        (List.sorted_insertionSort (· ≤ ·) idxs)
    cases hrev : ((List.insertionSort (· ≤ ·) idxs).dedup).reverse with
    | nil =>
      rw [List.reverse_eq_nil_iff] at hrev
      rw [hrev] at him
      simp at him
    | cons j l' =>
      have hm2 : (List.insertionSort (· ≤ ·) idxs).dedup = l'.reverse ++ [j] := by
        have h := congrArg List.reverse hrev
        simpa using h
      have hij : i ≤ j := by
        rw [hm2] at him hsorted
        rcases List.mem_append.mp him with h | h
        · exact (List.pairwise_append.mp hsorted).2.2 i h j (by simp)
        · simp at h
          omega
      unfold reject_by_indices
      rw [hrev]
      have hj : j = 0 ∨ s.pending.length < j := Or.inr (by omega)
      simp [batchGo, hj]
  · intro s idxs h0
    have hm : 0 ∈ (List.insertionSort (· ≤ ·) idxs).dedup := by
      rw [List.mem_dedup]
      exact ((List.perm_insertionSort (· ≤ ·) idxs).mem_iff).mpr h0
    have hsorted : List.Sorted (· ≤ ·) ((List.insertionSort (· ≤ ·) idxs).dedup) :=
      List.Pairwise.sublist (List.dedup_sublist _)
        (List.sorted_insertionSort (· ≤ ·) idxs)
    cases hd : (List.insertionSort (· ≤ ·) idxs).dedup with
    | nil =>
      rw [hd] at hm
      simp at hm
    | cons a rest =>
      have ha0 : a = 0 := by
        rw [hd] at hm hsorted
        rcases List.mem_cons.mp hm with he | he
        · omega
        · have hle := List.rel_of_sorted_cons hsorted 0 he
          omega
      subst ha0
      refine ⟨rest, rfl, ?_⟩
      unfold reject_by_indices
      rw [hd, List.reverse_cons]
      have hfin := batchGo_append_invalid rejectEntry s.pending rest.reverse 0 [] s
        (Or.inl rfl)
      simpa using hfin
  · intro s good b rest hb
    exact batchGo_append_invalid acceptEntry s.pending good b rest s hb

/-- Witness for C2: a two-item inbox; index zero fails both operations,
an index above the count makes reject a no-op failure, reject with a
zero index processes the zero last (after the larger index), and accept
over a valid index followed by a bad one equals the state after the
valid prefix. -/
theorem c2_batch_index_validation_witness :
    ((accept_by_indices { pending := [sampleItem 1, sampleItem 2], filed := [] } [0]).2 =
        false ∧
      (reject_by_indices { pending := [sampleItem 1, sampleItem 2], filed := [] } [0]).2 =
        false) ∧
    reject_by_indices { pending := [sampleItem 1, sampleItem 2], filed := [] } [1, 3] =
      ({ pending := [sampleItem 1, sampleItem 2], filed := [] }, false) ∧
    (∃ rest, (List.insertionSort (· ≤ ·) [1, 0]).dedup = 0 :: rest ∧
      reject_by_indices { pending := [sampleItem 1, sampleItem 2], filed := [] } [1, 0] =
        ((batchGo rejectEntry [sampleItem 1, sampleItem 2]
            { pending := [sampleItem 1, sampleItem 2], filed := [] } rest.reverse).1,
          false)) ∧
    accept_by_indices { pending := [sampleItem 1, sampleItem 2], filed := [] } ([1] ++ 3 :: []) =
      ((accept_by_indices { pending := [sampleItem 1, sampleItem 2], filed := [] } [1]).1,
        false) := by
  refine ⟨?_, ?_, ?_, ?_⟩
  · exact c2_batch_index_validation.1
      { pending := [sampleItem 1, sampleItem 2], filed := [] } [0]
      ⟨0, by decide, Or.inl rfl⟩
  · exact c2_batch_index_validation.2.1
      { pending := [sampleItem 1, sampleItem 2], filed := [] } [1, 3] 3
      (by decide) (by decide)
  · exact c2_batch_index_validation.2.2.1
      { pending := [sampleItem 1, sampleItem 2], filed := [] } [1, 0]
      (by decide)
  · exact c2_batch_index_validation.2.2.2
      { pending := [sampleItem 1, sampleItem 2], filed := [] } [1] 3 []
      (Or.inr (by decide))

/-- Counterexample for C2 as stated: on a two-item inbox, accepting
indices one and three fails as claimed but the inbox has been modified
(the first item was filed and removed before the error), and rejecting
indices one and zero fails with the first item already deleted — the
zero was validated only after the valid index had been processed. -/
theorem c2_batch_index_validation_counterexample :
    ((accept_by_indices { pending := [sampleItem 1, sampleItem 2], filed := [] } [1, 3]).2 =
        false ∧
      (accept_by_indices { pending := [sampleItem 1, sampleItem 2], filed := [] } [1, 3]).1 ≠
        { pending := [sampleItem 1, sampleItem 2], filed := [] }) ∧
    ((reject_by_indices { pending := [sampleItem 1, sampleItem 2], filed := [] } [1, 0]).2 =
        false ∧
      (reject_by_indices { pending := [sampleItem 1, sampleItem 2], filed := [] } [1, 0]).1 =
        { pending := [sampleItem 2], filed := [] }) := by
  decide

-- ── Claim C6 ──

theorem eq_of_perm_sorted_nodup_keys :
    ∀ (l₁ l₂ : List InboxItem), l₁.Perm l₂ →
      List.Sorted capturedLe l₁ → List.Sorted capturedLe l₂ →
      (l₁.map InboxItem.capturedAt).Nodup → l₁ = l₂ := by
  intro l₁
  induction l₁ with
  | nil =>
    intro l₂ hp _ _ _
    exact (hp.symm.eq_nil).symm
  | cons a t ih =>
    intro l₂ hp hs₁ hs₂ hnd
    cases l₂ with
    | nil => simpa using hp.eq_nil
    | cons b t₂ =>
      have hab : a = b := by
        have ha : a ∈ b :: t₂ := hp.mem_iff.mp (by simp)
        have hb : b ∈ a :: t := hp.mem_iff.mpr (by simp)
        rcases List.mem_cons.mp ha with h | ha'
        · exact h
        · rcases List.mem_cons.mp hb with h | hb'
          · exact h.symm
          · exfalso
            have hba : b.capturedAt ≤ a.capturedAt :=
              List.rel_of_sorted_cons hs₂ a ha'
            have hab' : a.capturedAt ≤ b.capturedAt :=
              List.rel_of_sorted_cons hs₁ b hb'
            have hkey : a.capturedAt = b.capturedAt := le_antisymm hab' hba
            have hmem : a.capturedAt ∈ t.map InboxItem.capturedAt := by
              rw [hkey]
              exact List.mem_map_of_mem _ hb'
            have hndc : a.capturedAt ∉ t.map InboxItem.capturedAt := by
              have h := hnd
              simp only [List.map_cons, List.nodup_cons] at h
              exact h.1
            exact hndc hmem
      subst hab
      have hpt : t.Perm t₂ := (List.perm_cons a).mp hp
      have hndt : (t.map InboxItem.capturedAt).Nodup := by
        have h := hnd
        simp only [List.map_cons, List.nodup_cons] at h
        exact h.2
      rw [ih t₂ hpt hs₁.of_cons hs₂.of_cons hndt]

/-- Claim C6 (confirmed).  Inbox listing over any directory state: every
file that fails to decode is skipped without aborting (the result is a
permutation of exactly the decodable files), the result is sorted
ascending by captured_at, and — when capture times are distinct — the
result does not depend on the order in which the directory entries were
read. -/
theorem c6_inbox_listing (C : InboxYaml) (files files' : List (List Char))
    (hperm : files.Perm files')
    (hnd : ((files.filterMap (decodeInboxFile C)).map InboxItem.capturedAt).Nodup) :
    List.Sorted capturedLe (listInbox C files) ∧
    (listInbox C files).Perm (files.filterMap (decodeInboxFile C)) ∧
    listInbox C files = listInbox C files' := by
  refine ⟨List.sorted_insertionSort _ _, List.perm_insertionSort _ _, ?_⟩
  apply eq_of_perm_sorted_nodup_keys
  · exact (List.perm_insertionSort _ _).trans
      ((hperm.filterMap _).trans (List.perm_insertionSort _ _).symm)
  · exact List.sorted_insertionSort _ _
  · exact List.sorted_insertionSort _ _
  · have hmp : ((listInbox C files).map InboxItem.capturedAt).Perm
        ((files.filterMap (decodeInboxFile C)).map InboxItem.capturedAt) :=
      (List.perm_insertionSort _ _).map _
    exact hmp.nodup_iff.mpr hnd

/-- Witness for C6: three decodable files (capture times one, two, three)
plus one junk file, listed in two different directory orders; both orders
give the same oldest-first listing, which is a permutation of the three
decoded items. -/
theorem c6_inbox_listing_witness :
    List.Sorted capturedLe
        (listInbox sampleInboxYaml
          [sampleFile 3 [], sampleFile 1 [], ("junk").data, sampleFile 2 []]) ∧
      (listInbox sampleInboxYaml
          [sampleFile 3 [], sampleFile 1 [], ("junk").data, sampleFile 2 []]).Perm
        ([sampleFile 3 [], sampleFile 1 [], ("junk").data,
            sampleFile 2 []].filterMap (decodeInboxFile sampleInboxYaml)) ∧
      listInbox sampleInboxYaml
          [sampleFile 3 [], sampleFile 1 [], ("junk").data, sampleFile 2 []] =
        listInbox sampleInboxYaml
          [sampleFile 2 [], ("junk").data, sampleFile 1 [], sampleFile 3 []] :=
  c6_inbox_listing sampleInboxYaml
    [sampleFile 3 [], sampleFile 1 [], ("junk").data, sampleFile 2 []]
    [sampleFile 2 [], ("junk").data, sampleFile 1 [], sampleFile 3 []]
    (by decide) (by decide)

-- ── Claim C4 ──

theorem entropy_check_space {t : List Char} (h : ' ' ∈ t) :
    entropy_check t = true := by
  unfold entropy_check
  rw [if_pos h]

theorem foldl_sub_sum (g : Char → ℝ) :
    ∀ (l : List Char) (a : ℝ),
      l.foldl (fun acc c => acc - g c) a = a - (l.map g).sum := by
  intro l
  induction l with
  | nil => intro a; simp
  | cons c t ih =>
    intro a
    simp only [List.foldl_cons, List.map_cons, List.sum_cons]
    rw [ih (a - g c)]
    ring

theorem shannon_entropy_nodup (t : List Char) (hnd : t.Nodup) (hne : t ≠ [])
    (hlen : utf8Len t = t.length) :
    shannon_entropy t = Real.logb 2 (t.length : ℝ) := by
  have hn0 : t.length ≠ 0 := by
    simpa using fun h => hne (List.length_eq_zero.mp h)
  have hnR : (t.length : ℝ) ≠ 0 := Nat.cast_ne_zero.mpr hn0
  unfold shannon_entropy
  rw [if_neg (by rw [hlen]; exact hn0)]
  rw [foldl_sub_sum, hnd.dedup]
  have hmap : t.map (fun c => ((t.count c : ℝ) / (utf8Len t : ℝ)) *
      Real.logb 2 ((t.count c : ℝ) / (utf8Len t : ℝ))) =
      t.map (fun _ => ((t.length : ℝ))⁻¹ * Real.logb 2 (((t.length : ℝ))⁻¹)) := by
    apply List.map_congr_left
    intro c hc
    rw [List.count_eq_one_of_mem hnd hc, hlen]
    norm_num
  rw [hmap, List.map_const', List.sum_replicate, nsmul_eq_mul, Real.logb_inv]
  field_simp

/-- Claim C4 (corrected).  The entropy stage bypass tests for a space
character only, not for arbitrary whitespace: text containing a space
always passes, and text without a space is rejected exactly when its
Shannon entropy (frequencies normalized by the UTF-8 byte length, as the
source divides by str::len) exceeds 4.5.  The example values hold:
entropy of "aaaa" is zero, of "aabb" one, of the empty string zero.  The
claim as stated is false: text containing a tab but no space still goes
through the entropy computation and can be rejected (counterexample). -/
theorem c4_entropy_stage :
    (∀ t : List Char, ' ' ∈ t → entropy_check t = true) ∧
    (∀ t : List Char, ' ' ∉ t →
      (entropy_check t = false ↔ 4.5 < shannon_entropy t)) ∧
    shannon_entropy (("aaaa").data) = 0 ∧
    shannon_entropy (("aabb").data) = 1 ∧
    shannon_entropy ([] : List Char) = 0 := by
  refine ⟨fun t h => entropy_check_space h, ?_, ?_, ?_, ?_⟩
  · intro t ht
    unfold entropy_check
    rw [if_neg ht, decide_eq_false_iff_not]
    exact not_le
  · unfold shannon_entropy
    rw [if_neg (by decide)]
    rw [show (("aaaa").data).dedup = ['a'] from by decide]
    simp only [List.foldl_cons, List.foldl_nil]
    rw [show List.count 'a' (("aaaa").data) = 4 from by decide,
      show utf8Len (("aaaa").data) = 4 from by decide]
    norm_num [Real.logb_one]
  · have hl : Real.logb 2 ((2 : ℝ) / 4) = -1 := by
      rw [show ((2 : ℝ) / 4) = (2 : ℝ)⁻¹ by norm_num, Real.logb_inv,
        Real.logb_self_eq_one (by norm_num)]
    unfold shannon_entropy
    rw [if_neg (by decide)]
    rw [show (("aabb").data).dedup = ['a', 'b'] from by decide]
    simp only [List.foldl_cons, List.foldl_nil]
    rw [show List.count 'a' (("aabb").data) = 2 from by decide,
      show List.count 'b' (("aabb").data) = 2 from by decide,
      show utf8Len (("aabb").data) = 4 from by decide]
    push_cast
    rw [hl]
    norm_num
  · unfold shannon_entropy
    rw [if_pos (by decide)]

/-- Witness for C4: a text with a space passes the stage, and for a
spaceless text the rejection condition is exactly the entropy bound. -/
theorem c4_entropy_stage_witness :
    entropy_check [' ', 'a'] = true ∧
      (entropy_check ['a'] = false ↔ 4.5 < shannon_entropy ['a']) :=
  ⟨c4_entropy_stage.1 [' ', 'a'] (by decide), c4_entropy_stage.2.1 ['a'] (by decide)⟩

/-- Counterexample for C4 as stated: thirty-two distinct characters, one
of them a tab (whitespace) and none a space; the claim says whitespace
always passes the stage, but the stage computes entropy five and rejects
the text. -/
theorem c4_entropy_stage_counterexample :
    ('\t' ∈ entropySample ∧ Char.isWhitespace '\t' = true) ∧
      entropy_check entropySample = false := by
  refine ⟨⟨by decide, by decide⟩, ?_⟩
  have hH : shannon_entropy entropySample = Real.logb 2 (32 : ℝ) := by
    have h := shannon_entropy_nodup entropySample (by decide) (by decide) (by decide)
    rw [h, show entropySample.length = 32 from by decide]
    norm_num
  unfold entropy_check
  rw [if_neg (by decide : ¬ ' ' ∈ entropySample), decide_eq_false_iff_not, hH,
    show (32 : ℝ) = 2 ^ (5 : ℕ) by norm_num, Real.logb_pow,
    Real.logb_self_eq_one (by norm_num)]
  norm_num

-- ── Claim C5 ──

theorem dedup_check_iff (url : List Char) (now : Int) (entries : List InboxItem) :
    dedup_check url now entries = false ↔
      ∃ e ∈ entries, e.source = some url ∧ now - hours24 < e.capturedAt := by
  unfold dedup_check
  simp only [Bool.not_eq_false', List.any_eq_true, Bool.and_eq_true,
    decide_eq_true_eq, beq_iff_eq]
  constructor
  · rintro ⟨e, he, hlt, hsrc⟩
    exact ⟨e, he, hsrc, hlt⟩
  · rintro ⟨e, he, hsrc, hlt⟩
    exact ⟨e, he, hlt, hsrc⟩

/-- Claim C5 (corrected).  Given text that passes all earlier pipeline
stages and yields a URL, the pipeline returns none exactly when some
pending entry has that exact source and was captured STRICTLY later than
the current time minus twenty-four hours — the window is exclusive at its
lower endpoint (an entry captured exactly twenty-four hours ago does not
count as a duplicate, contrary to the claim's inclusive window; see the
counterexample), and no upper endpoint is checked; otherwise the pipeline
returns the URL. -/
theorem c5_dedup_window (text url : List Char) (ign : List (List Char))
    (entries : List InboxItem) (now : Int)
    (h1 : length_check text = true) (h2 : entropy_check text = true)
    (h3 : code_detection text = true) (h4 : extract_url text = some url)
    (h5 : domain_filter url ign = true) :
    (run_filter_pipeline text ign entries now = none ↔
      ∃ e ∈ entries, e.source = some url ∧ now - hours24 < e.capturedAt) ∧
    (run_filter_pipeline text ign entries now = some url ↔
      ¬ ∃ e ∈ entries, e.source = some url ∧ now - hours24 < e.capturedAt) := by
  have hpipe : run_filter_pipeline text ign entries now =
      (if dedup_check url now entries = false then none else some url) := by
    unfold run_filter_pipeline
    simp [h1, h2, h3, h4, h5]
  by_cases hd : dedup_check url now entries = false
  · have hex := (dedup_check_iff url now entries).mp hd
    rw [hpipe, if_pos hd]
    exact ⟨⟨fun _ => hex, fun _ => rfl⟩,
      ⟨fun h => absurd h (by simp), fun hn => absurd hex hn⟩⟩
  · have hnex : ¬ ∃ e ∈ entries, e.source = some url ∧ now - hours24 < e.capturedAt := by
      intro hex
      exact hd ((dedup_check_iff url now entries).mpr hex)
    rw [hpipe, if_neg hd]
    exact ⟨⟨fun h => absurd h (by simp), fun hex => absurd hex hnex⟩,
      ⟨fun _ => hnex, fun _ => rfl⟩⟩

/-- Witness for C5: the pipeline hypotheses discharged on a concrete
capture text against an empty inbox. -/
theorem c5_dedup_window_witness :
    (run_filter_pipeline (("see https://example.com/a now").data)
        default_ignore_domains [] 86400 = none ↔
      ∃ e ∈ ([] : List InboxItem),
        e.source = some (("https://example.com/a").data) ∧
          86400 - hours24 < e.capturedAt) ∧
    (run_filter_pipeline (("see https://example.com/a now").data)
        default_ignore_domains [] 86400 = some (("https://example.com/a").data) ↔
      ¬ ∃ e ∈ ([] : List InboxItem),
        e.source = some (("https://example.com/a").data) ∧
          86400 - hours24 < e.capturedAt) :=
  c5_dedup_window (("see https://example.com/a now").data)
    (("https://example.com/a").data) default_ignore_domains [] 86400
    (by decide) (entropy_check_space (by decide)) (by decide) (by decide) (by decide)

/-- Counterexample for C5 as stated: an entry with the same source
captured exactly twenty-four hours ago lies inside the claim's inclusive
window, so the claim demands none, but the code's strict comparison lets
the URL through again. -/
theorem c5_dedup_window_counterexample :
    boundaryEntry.capturedAt = 86400 - hours24 ∧
      boundaryEntry.source = some (("https://example.com/a").data) ∧
      run_filter_pipeline (("see https://example.com/a now").data)
          default_ignore_domains [boundaryEntry] 86400 =
        some (("https://example.com/a").data) := by
  refine ⟨by decide, by decide, ?_⟩
  unfold run_filter_pipeline
  simp [entropy_check_space (by decide : ' ' ∈ (("see https://example.com/a now").data)),
    show length_check (("see https://example.com/a now").data) = true from by decide,
    show code_detection (("see https://example.com/a now").data) = true from by decide,
    show extract_url (("see https://example.com/a now").data) =
      some (("https://example.com/a").data) from by decide,
    show domain_filter (("https://example.com/a").data) default_ignore_domains = true
      from by decide,
    show dedup_check (("https://example.com/a").data) 86400 [boundaryEntry] = true
      from by decide]
